import Mathlib

/-!
Verification of the torchio fork's transform-composition layer
(src/torchio/transforms/augmentation/composition.py) and of the
KeepLargestComponent label transform
(src/torchio/transforms/preprocessing/label/keep_largest_component.py),
as a shallow embedding in Lean.

Subjects are abstract: a transform is a function from samples and a seed to
samples (the seed carries all per-call randomness).  Parts of the repository
that are not under src/ (the Transform base class in transform.py, gen_seed
in utils.py) and the external libraries the code defers to (torchvision's
Compose, SimpleITK's connected-component filters) are modelled from the
spec; each such definition says so in its doc comment.
-/

namespace TorchioSpec

/-- A seeded transform: the Python objects passed to Compose are callables
taking a sample and a seed, `t(sample, s)` in Compose.apply_transform.
The sample type is abstract. -/
def STransform (α : Type) : Type := α → Nat → α

/-- Modelled from the spec: the Transform base class call operator
(transform.py, not under src/).  The framework RNG is seeded from the seed
argument, so the probability draw is a function of the seed; the transform
body is applied when the draw falls below the probability p, otherwise the
input is returned unchanged. -/
def Transform.call (p : ℚ) (coin : ℚ) (applyT : α → α) (data : α) : α :=
  if coin < p then applyT data else data

/-- Compose.apply_transform (composition.py lines 38-41): iterate over the
zip of the stored transforms and the stored seeds, applying each transform
with its seed to the running sample. -/
def Compose.apply_transform (ts : List (STransform α)) (seeds : List Nat)
    (sample : α) : α :=
  (ts.zip seeds).foldl (fun s p => p.1 s p.2) sample

/-- Compose.__call__ (composition.py lines 29-36): if the stored transform
list is empty, return the data unchanged; otherwise, when no seeds are
given, draw one fresh seed per transform (gen_seed, modelled by the stream
`fresh`), record the seed list and defer to the base-class call with the
probability gate.  `coinOf` models the probability draw as a function of
the seed list (the base class seeds the RNG from it). -/
def Compose.call (coinOf : List Nat → ℚ) (fresh : Nat → Nat)
    (ts : List (STransform α)) (p : ℚ) (data : α) (seeds : List Nat) : α :=
  if ts.isEmpty then data
  else
    let ss := if seeds.isEmpty then (List.range ts.length).map fresh else seeds
    Transform.call p (coinOf ss) (Compose.apply_transform ts ss) data

/-- Modelled from the spec: torchvision.transforms.Compose, the tensor
framework's composition utility the wrapper claims to defer to: it applies
each transform of its list in order to the running image. -/
def pytorchComposeCall (ts : List (α → α)) (x : α) : α :=
  ts.foldl (fun s t => t s) x

/-- ListOf.apply_transform (composition.py lines 152-158): start from an
empty list and append the result of applying each transform to the given
sample; the sample fed to every transform is the original input. -/
def ListOf.apply_transform (ts : List (α → α)) (sample : α) : List α :=
  ts.foldl (fun acc tt => acc ++ [tt sample]) []

/-- A key of a OneOf transforms dictionary: the isinstance check in
_get_transforms_dict distinguishes Transform instances from any other
Python object; the id separates distinct objects. -/
inductive DictKey
  | transform (id : Nat)
  | notTransform (id : Nat)
deriving DecidableEq

/-- Whether a dictionary key is a Transform instance. -/
def DictKey.isTransform : DictKey → Bool
  | .transform _ => true
  | .notTransform _ => false

/-- The transforms argument of OneOf: a dict from keys to probabilities, a
sized sequence of keys, or an object without len, for which len raises
TypeError. -/
inductive TransformsArg
  | dict (entries : List (DictKey × ℚ))
  | seq (elems : List DictKey)
  | unsized

/-- The exceptions the OneOf constructor can raise. -/
inductive PyError
  | valueError
  | zeroDivisionError
deriving DecidableEq

/-- OneOf._normalize_probabilities (composition.py lines 105-121):
ValueError when some probability is negative, then ValueError when all
probabilities are zero, otherwise each probability is divided by the sum
of all of them.  Python floats are modelled as exact rationals. -/
def OneOf.normalize_probabilities (entries : List (DictKey × ℚ)) :
    Except PyError (List (DictKey × ℚ)) :=
  let probabilities := entries.map Prod.snd
  if probabilities.any fun p => decide (p < 0) then .error .valueError
  else if probabilities.all fun p => decide (p = 0) then .error .valueError
  else .ok (entries.map fun e => (e.1, e.2 / probabilities.sum))

/-- OneOf._get_transforms_dict (composition.py lines 82-103): a dict
argument is copied and normalized, with normalization errors raised first;
a sequence argument gives every element probability one over its length,
an empty sequence raising ZeroDivisionError because the except clause only
catches TypeError; an unsized argument raises ValueError from the caught
TypeError; finally every key of the resulting dict must be a Transform
instance, else ValueError. -/
def OneOf.get_transforms_dict :
    TransformsArg → Except PyError (List (DictKey × ℚ))
  | .dict entries =>
    match OneOf.normalize_probabilities entries with
    | .error e => .error e
    | .ok d =>
      if d.all fun e => e.1.isTransform then .ok d else .error .valueError
  | .seq elems =>
    if elems.length = 0 then .error .zeroDivisionError
    else
      let d := elems.map fun k => (k, (1 : ℚ) / elems.length)
      if d.all fun e => e.1.isTransform then .ok d else .error .valueError
  | .unsized => .error .valueError

/-- The cases in which the claim says OneOf construction raises
ValueError: the argument is neither a dict nor a sized sequence, or some
key of the resulting dict is not a Transform instance, or some probability
of a dict argument is negative, or all probabilities of a dict argument
are zero. -/
def raisesValueError : TransformsArg → Prop
  | .dict entries =>
      (∃ e ∈ entries, e.1.isTransform = false)
        ∨ (∃ e ∈ entries, e.2 < 0)
        ∨ (∀ e ∈ entries, e.2 = 0)
  | .seq elems => ∃ k ∈ elems, k.isTransform = false
  | .unsized => True

/-! The KeepLargestComponent transform.  A binary single-channel label
image (the assert in apply_transform requires ndim 4 and shape[0] equal
to one) is a Boolean function on its voxels, flattened to Fin n; adj is
the voxel adjacency used by the toolkit's filters.  Reachability is
computed by saturated foreground dilation: n steps suffice because each
non-stable step adds at least one of the n voxels. -/

/-- One step of foreground dilation: add every foreground voxel adjacent
to a voxel of the current set. -/
def adjStep (n : ℕ) (fg : Fin n → Bool) (adj : Fin n → Fin n → Bool)
    (s : Finset (Fin n)) : Finset (Fin n) :=
  s ∪ Finset.univ.filter fun w => fg w = true ∧ ∃ v ∈ s, adj v w = true

/-- The voxels reachable from v through foreground voxels. -/
def reachSet (n : ℕ) (fg : Fin n → Bool) (adj : Fin n → Fin n → Bool)
    (v : Fin n) : Finset (Fin n) :=
  (adjStep n fg adj)^[n] {v}

/-- Mathematical connectivity inside the foreground: the reflexive
transitive closure of adjacency restricted to foreground voxels. -/
def Connected (n : ℕ) (fg : Fin n → Bool) (adj : Fin n → Fin n → Bool)
    (v w : Fin n) : Prop :=
  Relation.ReflTransGen
    (fun a b => fg a = true ∧ fg b = true ∧ adj a b = true) v w

/-- Modelled from the spec: the composite toolkit pipeline of
apply_transform (keep_largest_component.py lines 23-26).  The medical
image-processing toolkit's ConnectedComponent filter labels the connected
components of the foreground and its RelabelComponent filter sorts the
labels by decreasing component size, so comparing with label one keeps a
component of maximal size, ties broken by label order; this definition
picks the representative voxel of that component: a foreground voxel
whose component has maximal size, preferring earlier scan order. -/
def largestRep (n : ℕ) (fg : Fin n → Bool) (adj : Fin n → Fin n → Bool) :
    Option (Fin n) :=
  ((List.finRange n).filter fun v => fg v).argmax
    fun v => (reachSet n fg adj v).card

/-- The voxelwise output of the pipeline: foreground exactly on the
component of the representative voxel, all background when the image has
no foreground (then no component exists and no voxel has label one). -/
def keepLargestData (n : ℕ) (fg : Fin n → Bool)
    (adj : Fin n → Fin n → Bool) (v : Fin n) : Bool :=
  match largestRep n fg adj with
  | none => false
  | some b => decide (v ∈ reachSet n fg adj b)

/-- A binary single-channel label image, flattened over its voxels. -/
structure LabelImage (n : ℕ) where
  data : Fin n → Bool

/-- A subject: the collection of its label images, as iterated by
get_images in apply_transform. -/
structure Subject (n : ℕ) where
  images : List (LabelImage n)

/-- KeepLargestComponent.apply_transform (keep_largest_component.py lines
20-29): every image of the subject has its binary data replaced by the
output of the connected-component pipeline, and the subject is
returned. -/
def KeepLargestComponent.apply_transform (n : ℕ)
    (adj : Fin n → Fin n → Bool) (subject : Subject n) : Subject n :=
  { images := subject.images.map fun im => ⟨keepLargestData n im.data adj⟩ }

/-- A concrete four-voxel line image: voxel two is background, so the
components are the pair zero-one and the singleton three. -/
def witnessImage : LabelImage 4 := ⟨fun v => decide (v.val ≠ 2)⟩

/-- Line adjacency on four voxels. -/
def witnessAdj : Fin 4 → Fin 4 → Bool :=
  fun i j => decide (i.val + 1 = j.val ∨ j.val + 1 = i.val)

theorem subset_adjStep (n : ℕ) (fg : Fin n → Bool)
    (adj : Fin n → Fin n → Bool) (s : Finset (Fin n)) :
    s ⊆ adjStep n fg adj s :=
  Finset.subset_union_left

theorem fg_of_mem_iterate (n : ℕ) (fg : Fin n → Bool)
    (adj : Fin n → Fin n → Bool) (v : Fin n) (hv : fg v = true) (k : ℕ) :
    ∀ w ∈ (adjStep n fg adj)^[k] {v}, fg w = true := by
  induction k with
  | zero =>
    intro w hw
    rw [Function.iterate_zero_apply, Finset.mem_singleton] at hw
    subst hw
    exact hv
  | succ k ih =>
    intro w hw
    rw [Function.iterate_succ_apply'] at hw
    rcases Finset.mem_union.mp hw with h | h
    · exact ih w h
    · exact (Finset.mem_filter.mp h).2.1

theorem connected_of_mem_iterate (n : ℕ) (fg : Fin n → Bool)
    (adj : Fin n → Fin n → Bool) (v : Fin n) (hv : fg v = true) (k : ℕ) :
    ∀ w ∈ (adjStep n fg adj)^[k] {v}, Connected n fg adj v w := by
  induction k with
  | zero =>
    intro w hw
    rw [Function.iterate_zero_apply, Finset.mem_singleton] at hw
    subst hw
    exact Relation.ReflTransGen.refl
  | succ k ih =>
    intro w hw
    rw [Function.iterate_succ_apply'] at hw
    rcases Finset.mem_union.mp hw with h | h
    · exact ih w h
    · obtain ⟨-, hfgw, u, hu, hadj⟩ := Finset.mem_filter.mp h
      have hfgu : fg u = true := fg_of_mem_iterate n fg adj v hv k u hu
      exact (ih u hu).tail ⟨hfgu, hfgw, hadj⟩

theorem card_le_iterate (n : ℕ) (f : Finset (Fin n) → Finset (Fin n))
    (hsub : ∀ s, s ⊆ f s) (s₀ : Finset (Fin n)) (k : ℕ)
    (h : ∀ j < k, f^[j + 1] s₀ ≠ f^[j] s₀) :
    s₀.card + k ≤ (f^[k] s₀).card := by
  induction k with
  | zero => simp
  | succ k ih =>
    have h1 : s₀.card + k ≤ (f^[k] s₀).card :=
      ih fun j hj => h j (Nat.lt_succ_of_lt hj)
    have hne : f^[k] s₀ ≠ f^[k + 1] s₀ := Ne.symm (h k (Nat.lt_succ_self k))
    have h2 : (f^[k] s₀).card < (f^[k + 1] s₀).card := by
      apply Finset.card_lt_card
      rw [Finset.ssubset_iff_subset_ne]
      refine ⟨?_, hne⟩
      rw [Function.iterate_succ_apply']
      exact hsub _
    omega

theorem iterate_fix_of_le {σ : Type} (f : σ → σ) (s₀ : σ) (j m : ℕ)
    (hjm : j ≤ m) (hfix : f (f^[j] s₀) = f^[j] s₀) :
    f^[m] s₀ = f^[j] s₀ := by
  induction m with
  | zero =>
    have hj0 : j = 0 := Nat.le_zero.mp hjm
    subst hj0
    rfl
  | succ m ih =>
    rcases Nat.eq_or_lt_of_le hjm with heq | hlt
    · rw [heq]
    · have hjm2 : j ≤ m := Nat.lt_succ_iff.mp hlt
      rw [Function.iterate_succ_apply', ih hjm2, hfix]

theorem singleton_subset_iterate (n : ℕ) (fg : Fin n → Bool)
    (adj : Fin n → Fin n → Bool) (v : Fin n) (k : ℕ) :
    ({v} : Finset (Fin n)) ⊆ (adjStep n fg adj)^[k] {v} := by
  induction k with
  | zero => exact Finset.Subset.refl _
  | succ k ih =>
    rw [Function.iterate_succ_apply']
    exact ih.trans (subset_adjStep n fg adj _)

theorem adjStep_reachSet_fixed (n : ℕ) (fg : Fin n → Bool)
    (adj : Fin n → Fin n → Bool) (v : Fin n) :
    adjStep n fg adj (reachSet n fg adj v) = reachSet n fg adj v := by
  set f := adjStep n fg adj with hf
  show f (f^[n] {v}) = f^[n] {v}
  by_contra hne
  have hnofix : ∀ j < n, f^[j + 1] {v} ≠ f^[j] {v} := by
    intro j hj heq
    apply hne
    have hfixj : f (f^[j] {v}) = f^[j] {v} := by
      have h2 := Function.iterate_succ_apply' f j ({v} : Finset (Fin n))
      rw [← h2]
      exact heq
    have h1 : f^[n] {v} = f^[j] {v} :=
      iterate_fix_of_le f {v} j n (Nat.le_of_lt hj) hfixj
    rw [h1]
    exact hfixj
  have hcard := card_le_iterate n f (subset_adjStep n fg adj) {v} n hnofix
  rw [Finset.card_singleton] at hcard
  have hle : (f^[n] ({v} : Finset (Fin n))).card ≤ n := by
    have h := Finset.card_le_univ (f^[n] ({v} : Finset (Fin n)))
    rwa [Fintype.card_fin] at h
  omega

theorem mem_reachSet_of_connected (n : ℕ) (fg : Fin n → Bool)
    (adj : Fin n → Fin n → Bool) (v w : Fin n)
    (h : Connected n fg adj v w) : w ∈ reachSet n fg adj v := by
  induction h with
  | refl =>
    exact singleton_subset_iterate n fg adj v n (Finset.mem_singleton_self v)
  | tail hab hbc ih =>
    rw [← adjStep_reachSet_fixed n fg adj v]
    apply Finset.mem_union_right
    rw [Finset.mem_filter]
    exact ⟨Finset.mem_univ _, hbc.2.1, _, ih, hbc.2.2⟩

theorem mem_reachSet_iff (n : ℕ) (fg : Fin n → Bool)
    (adj : Fin n → Fin n → Bool) (v : Fin n) (hv : fg v = true)
    (w : Fin n) :
    w ∈ reachSet n fg adj v ↔ Connected n fg adj v w :=
  ⟨fun h => connected_of_mem_iterate n fg adj v hv n w h,
    mem_reachSet_of_connected n fg adj v w⟩

/- Helper lemmas about the folds. -/

theorem Compose.apply_transform_eq_fold (ts : List (STransform α))
    (seeds : List Nat) (sample : α) :
    Compose.apply_transform ts seeds sample
      = pytorchComposeCall (List.zipWith (fun t s => fun x => t x s) ts seeds)
          sample := by
  induction ts generalizing seeds sample with
  | nil => cases seeds <;> rfl
  | cons t ts ih =>
    cases seeds with
    | nil => rfl
    | cons s ss =>
      simp only [Compose.apply_transform, List.zip_cons_cons, List.foldl_cons,
        List.zipWith_cons_cons, pytorchComposeCall] at *
      exact ih ss (t sample s)

theorem ListOf.apply_transform_eq_map (ts : List (α → α)) (sample : α) :
    ListOf.apply_transform ts sample = ts.map (fun t => t sample) := by
  suffices h : ∀ acc : List α,
      ts.foldl (fun acc tt => acc ++ [tt sample]) acc
        = acc ++ ts.map (fun t => t sample) by
    simpa using h []
  induction ts with
  | nil => intro acc; simp
  | cons t ts ih =>
    intro acc
    simp only [List.foldl_cons, List.map_cons, ih, List.append_assoc,
      List.singleton_append]

theorem sum_map_div (l : List ℚ) (S : ℚ) :
    (l.map fun p => p / S).sum = l.sum / S := by
  induction l with
  | nil => simp
  | cons a l ih => simp [ih, add_div]

theorem sum_pos_of_exists_ne_zero (l : List ℚ) (h0 : ∀ p ∈ l, 0 ≤ p)
    (hx : ∃ p ∈ l, p ≠ 0) : 0 < l.sum := by
  induction l with
  | nil => simp at hx
  | cons a l ih =>
    have ha : 0 ≤ a := h0 a (List.mem_cons_self a l)
    have hl : ∀ p ∈ l, 0 ≤ p := fun p hp => h0 p (List.mem_cons_of_mem a hp)
    obtain ⟨p, hp, hpne⟩ := hx
    rcases List.mem_cons.mp hp with rfl | hpl
    · have : 0 < p := lt_of_le_of_ne ha (Ne.symm hpne)
      have hs : 0 ≤ l.sum := List.sum_nonneg hl
      simp only [List.sum_cons]
      linarith
    · have : 0 < l.sum := ih hl ⟨p, hpl, hpne⟩
      simp only [List.sum_cons]
      linarith

theorem exists_eq_false_iff_not_all {β : Type} (l : List β) (f : β → Bool) :
    (∃ x ∈ l, f x = false) ↔ ¬(l.all f = true) := by
  constructor
  · rintro ⟨x, hx, hfx⟩ hall
    have h := List.all_eq_true.mp hall x hx
    rw [hfx] at h
    exact Bool.false_ne_true h
  · intro h
    by_contra hne
    push_neg at hne
    refine h (List.all_eq_true.mpr fun x hx => ?_)
    cases hfx : f x with
    | false => exact absurd hfx (hne x hx)
    | true => rfl

theorem any_neg_iff (entries : List (DictKey × ℚ)) :
    ((entries.map Prod.snd).any fun p => decide (p < 0)) = true
      ↔ ∃ e ∈ entries, e.2 < 0 := by
  rw [List.any_eq_true]
  constructor
  · rintro ⟨x, hx, hlt⟩
    obtain ⟨e, he, rfl⟩ := List.mem_map.mp hx
    exact ⟨e, he, of_decide_eq_true hlt⟩
  · rintro ⟨e, he, hlt⟩
    exact ⟨e.2, List.mem_map_of_mem Prod.snd he, decide_eq_true hlt⟩

theorem all_zero_iff (entries : List (DictKey × ℚ)) :
    ((entries.map Prod.snd).all fun p => decide (p = 0)) = true
      ↔ ∀ e ∈ entries, e.2 = 0 := by
  rw [List.all_eq_true]
  constructor
  · intro h e he
    exact of_decide_eq_true (h e.2 (List.mem_map_of_mem Prod.snd he))
  · intro h x hx
    obtain ⟨e, he, rfl⟩ := List.mem_map.mp hx
    exact decide_eq_true (h e he)

/-- C1: a Compose built from a transform sequence, called with probability
one and one seed per transform, applies the transforms sequentially in the
listed order, each with its corresponding seed, which is exactly the tensor
framework's composition utility (torchvision Compose) run on the
seed-applied transforms. -/
theorem compose_p1_refines_pytorchCompose (coinOf : List Nat → ℚ)
    (fresh : Nat → Nat) (ts : List (STransform α)) (seeds : List Nat)
    (data : α) (hlen : seeds.length = ts.length) (hcoin : coinOf seeds < 1) :
    Compose.call coinOf fresh ts 1 data seeds
      = pytorchComposeCall (List.zipWith (fun t s => fun x => t x s) ts seeds)
          data := by
  cases ts with
  | nil =>
    cases seeds with
    | nil => rfl
    | cons s ss => rfl
  | cons t ts' =>
    cases seeds with
    | nil => simp at hlen
    | cons s ss =>
      rw [Compose.call]
      simp only [List.isEmpty_cons, Bool.false_eq_true, if_false]
      rw [Transform.call, if_pos hcoin]
      exact Compose.apply_transform_eq_fold (t :: ts') (s :: ss) data

/-- Witness for C1 at a concrete input: two arithmetic transforms on
natural numbers, seeds 3 and 2, a zero probability draw. -/
theorem compose_p1_refines_pytorchCompose_witness :
    ([3, 2] : List Nat).length
        = ([fun x s => x + s, fun x s => x * s] : List (STransform Nat)).length
      ∧ (0 : ℚ) < 1
      ∧ Compose.call (fun _ => 0) id
          ([fun x s => x + s, fun x s => x * s] : List (STransform Nat))
          1 5 [3, 2]
        = pytorchComposeCall
            (List.zipWith (fun t s => fun x => t x s)
              ([fun x s => x + s, fun x s => x * s] : List (STransform Nat))
              [3, 2]) 5 :=
  ⟨rfl, by norm_num,
    compose_p1_refines_pytorchCompose (fun _ => 0) id
      [fun x s => x + s, fun x s => x * s] [3, 2] 5 rfl (by norm_num)⟩

/-- C3: Compose.__call__ is reproducible from the seed list: with one seed
per composed transform, the result does not depend on the fresh-seed
stream an invocation would otherwise draw from, so two invocations on the
same subject with the same seed list agree (each component transform being
a function of sample and seed). -/
theorem compose_reproducible_from_seeds (coinOf : List Nat → ℚ)
    (fresh₁ fresh₂ : Nat → Nat) (ts : List (STransform α)) (p : ℚ)
    (data : α) (seeds : List Nat) (hlen : seeds.length = ts.length) :
    Compose.call coinOf fresh₁ ts p data seeds
      = Compose.call coinOf fresh₂ ts p data seeds := by
  cases ts with
  | nil => rfl
  | cons t ts' =>
    cases seeds with
    | nil => simp at hlen
    | cons s ss => rfl

/-- Witness for C3 at a concrete input: an addition transform with seed 7,
two different fresh-seed streams. -/
theorem compose_reproducible_from_seeds_witness :
    ([7] : List Nat).length
        = ([fun x s => x + s] : List (STransform Nat)).length
      ∧ Compose.call (fun l => l.length) (fun n => n + 1)
          ([fun x s => x + s] : List (STransform Nat)) (1 / 2) 4 [7]
        = Compose.call (fun l => l.length) (fun n => n + 100)
          ([fun x s => x + s] : List (STransform Nat)) (1 / 2) 4 [7] :=
  ⟨rfl,
    compose_reproducible_from_seeds (fun l => l.length) (fun n => n + 1)
      (fun n => n + 100) [fun x s => x + s] (1 / 2) 4 [7] rfl⟩

/-- C5: ListOf.apply_transform returns a list with one element per
transform; the i-th element is the i-th transform applied to the original
input sample, so the transforms are applied independently to the same
input, not chained. -/
theorem listOf_apply_transform_spec (ts : List (α → α)) (sample : α) :
    (ListOf.apply_transform ts sample).length = ts.length
      ∧ ∀ i : Nat,
          (ListOf.apply_transform ts sample)[i]?
            = (ts[i]?).map fun t => t sample := by
  rw [ListOf.apply_transform_eq_map]
  refine ⟨List.length_map _ _, fun i => ?_⟩
  exact List.getElem?_map _ _ _

theorem list_all_map {β γ : Type} (l : List β) (f : β → γ) (p : γ → Bool) :
    (l.map f).all p = l.all fun x => p (f x) := by
  induction l with
  | nil => rfl
  | cons a l ih => simp [ih]

theorem bool_eq_false_of_not_true {b : Bool} (h : ¬b = true) : b = false := by
  cases b
  · rfl
  · exact absurd rfl h

theorem bool_not_true_of_eq_false {b : Bool} (h : b = false) : ¬b = true := by
  rw [h]
  exact Bool.false_ne_true

/-- C4: OneOf construction raises ValueError in exactly these cases: the
transforms argument is neither a dict nor a sized sequence, a key of the
resulting dict is not a Transform instance, a probability of a dict
argument is negative, or all probabilities of a dict argument are zero;
and every accepted dict argument stores each probability divided by the
sum of the given probabilities, so the stored probabilities sum to one. -/
theorem oneOf_get_transforms_dict_spec (arg : TransformsArg) :
    (OneOf.get_transforms_dict arg = .error .valueError
        ↔ raisesValueError arg)
      ∧ ∀ entries d, arg = TransformsArg.dict entries
          → OneOf.get_transforms_dict arg = .ok d
          → d = (entries.map fun e =>
                (e.1, e.2 / (entries.map Prod.snd).sum))
            ∧ (d.map Prod.snd).sum = 1 := by
  cases arg with
  | unsized =>
    refine ⟨iff_of_true rfl trivial, ?_⟩
    intro entries d he _
    exact TransformsArg.noConfusion he
  | seq elems =>
    refine ⟨?_, ?_⟩
    · by_cases hlen : elems.length = 0
      · have he : elems = [] := List.length_eq_zero.mp hlen
        subst he
        constructor
        · intro h
          simp [OneOf.get_transforms_dict] at h
        · rintro ⟨k, hk, -⟩
          exact absurd hk (List.not_mem_nil k)
      · by_cases hall : (elems.all fun k => k.isTransform) = true
        · have hallmap : ((elems.map fun k =>
              (k, (1 : ℚ) / elems.length)).all
              fun e => e.1.isTransform) = true := by
            rw [list_all_map]
            exact hall
          have hget : OneOf.get_transforms_dict (.seq elems)
              = .ok (elems.map fun k => (k, (1 : ℚ) / elems.length)) := by
            simp only [OneOf.get_transforms_dict]
            rw [if_neg hlen, if_pos hallmap]
          rw [hget]
          constructor
          · intro h
            exact Except.noConfusion h
          · intro hbad
            exact absurd hall ((exists_eq_false_iff_not_all elems _).mp hbad)
        · have hallmap : ((elems.map fun k =>
              (k, (1 : ℚ) / elems.length)).all
              fun e => e.1.isTransform) = false := by
            rw [list_all_map]
            exact bool_eq_false_of_not_true hall
          have hget : OneOf.get_transforms_dict (.seq elems)
              = .error .valueError := by
            simp only [OneOf.get_transforms_dict]
            rw [if_neg hlen, if_neg (bool_not_true_of_eq_false hallmap)]
          rw [hget]
          exact iff_of_true rfl
            ((exists_eq_false_iff_not_all elems _).mpr hall)
    · intro entries d he _
      exact TransformsArg.noConfusion he
  | dict entries =>
    by_cases hneg : ((entries.map Prod.snd).any fun p => decide (p < 0))
        = true
    · have hget : OneOf.get_transforms_dict (.dict entries)
          = .error .valueError := by
        simp only [OneOf.get_transforms_dict, OneOf.normalize_probabilities]
        rw [if_pos hneg]
      refine ⟨?_, ?_⟩
      · rw [hget]
        exact iff_of_true rfl (Or.inr (Or.inl ((any_neg_iff entries).mp hneg)))
      · intro entries' d he hok
        injection he with he'
        subst he'
        rw [hget] at hok
        exact Except.noConfusion hok
    · by_cases hzero : ((entries.map Prod.snd).all fun p => decide (p = 0))
          = true
      · have hget : OneOf.get_transforms_dict (.dict entries)
            = .error .valueError := by
          simp only [OneOf.get_transforms_dict,
            OneOf.normalize_probabilities]
          rw [if_neg hneg, if_pos hzero]
        refine ⟨?_, ?_⟩
        · rw [hget]
          exact iff_of_true rfl
            (Or.inr (Or.inr ((all_zero_iff entries).mp hzero)))
        · intro entries' d he hok
          injection he with he'
          subst he'
          rw [hget] at hok
          exact Except.noConfusion hok
      · have hnorm : OneOf.normalize_probabilities entries
            = .ok (entries.map fun e =>
                (e.1, e.2 / (entries.map Prod.snd).sum)) := by
          simp only [OneOf.normalize_probabilities]
          rw [if_neg hneg, if_neg hzero]
        by_cases hkeys : (entries.all fun e => e.1.isTransform) = true
        · have hallmap : ((entries.map fun e =>
              (e.1, e.2 / (entries.map Prod.snd).sum)).all
              fun e => e.1.isTransform) = true := by
            rw [list_all_map]
            exact hkeys
          have hget : OneOf.get_transforms_dict (.dict entries)
              = .ok (entries.map fun e =>
                  (e.1, e.2 / (entries.map Prod.snd).sum)) := by
            simp only [OneOf.get_transforms_dict, hnorm]
            rw [if_pos hallmap]
          have hpos : 0 < (entries.map Prod.snd).sum := by
            apply sum_pos_of_exists_ne_zero
            · intro p hp
              obtain ⟨e, he, rfl⟩ := List.mem_map.mp hp
              by_contra hlt
              push_neg at hlt
              exact hneg ((any_neg_iff entries).mpr ⟨e, he, hlt⟩)
            · have hz : ¬∀ e ∈ entries, e.2 = 0 :=
                fun h => hzero ((all_zero_iff entries).mpr h)
              push_neg at hz
              obtain ⟨e, he, hne0⟩ := hz
              exact ⟨e.2, List.mem_map_of_mem Prod.snd he, hne0⟩
          have hsum : (((entries.map fun e =>
              (e.1, e.2 / (entries.map Prod.snd).sum)).map Prod.snd).sum
                : ℚ) = 1 := by
            have hmm : ((entries.map fun e =>
                (e.1, e.2 / (entries.map Prod.snd).sum)).map Prod.snd)
                = ((entries.map Prod.snd).map
                    fun p => p / (entries.map Prod.snd).sum) := by
              rw [List.map_map, List.map_map]
              rfl
            rw [hmm, sum_map_div, div_self (ne_of_gt hpos)]
          refine ⟨?_, ?_⟩
          · rw [hget]
            constructor
            · intro h
              exact Except.noConfusion h
            · intro hbad
              rcases hbad with hbad | hbad | hbad
              · exact absurd hkeys
                  ((exists_eq_false_iff_not_all entries _).mp hbad)
              · exact absurd ((any_neg_iff entries).mpr hbad) hneg
              · exact absurd ((all_zero_iff entries).mpr hbad) hzero
          · intro entries' d he hok
            injection he with he'
            subst he'
            rw [hget] at hok
            injection hok with hd
            subst hd
            exact ⟨rfl, hsum⟩
        · have hallmap : ((entries.map fun e =>
              (e.1, e.2 / (entries.map Prod.snd).sum)).all
              fun e => e.1.isTransform) = false := by
            rw [list_all_map]
            exact bool_eq_false_of_not_true hkeys
          have hget : OneOf.get_transforms_dict (.dict entries)
              = .error .valueError := by
            simp only [OneOf.get_transforms_dict, hnorm]
            rw [if_neg (bool_not_true_of_eq_false hallmap)]
          refine ⟨?_, ?_⟩
          · rw [hget]
            exact iff_of_true rfl
              (Or.inl ((exists_eq_false_iff_not_all entries _).mpr hkeys))
          · intro entries' d he hok
            injection he with he'
            subst he'
            rw [hget] at hok
            exact Except.noConfusion hok

/-- Witness for C4 at a concrete input: a dict of two Transform keys with
probabilities 1 and 3 is accepted and the stored probabilities 1/4 and 3/4
sum to one. -/
theorem oneOf_get_transforms_dict_spec_witness :
    (([(DictKey.transform 0, (1 : ℚ) / 4),
        (DictKey.transform 1, 3 / 4)]).map Prod.snd).sum = 1 := by
  have hok : OneOf.get_transforms_dict
      (TransformsArg.dict [(.transform 0, 1), (.transform 1, 3)])
      = .ok [(.transform 0, 1 / 4), (.transform 1, 3 / 4)] := by
    simp only [OneOf.get_transforms_dict, OneOf.normalize_probabilities]
    norm_num [List.any_cons, List.any_nil, List.all_cons, List.all_nil,
      DictKey.isTransform]
  exact ((oneOf_get_transforms_dict_spec
        (TransformsArg.dict [(.transform 0, 1), (.transform 1, 3)])).2
      [(.transform 0, 1), (.transform 1, 3)]
      [(.transform 0, 1 / 4), (.transform 1, 3 / 4)] rfl hok).2

/-- C6: a Compose built from an empty transform sequence returns its input
unchanged for every probability, every seeds argument and every fresh-seed
stream: the empty composition is the identity and bypasses the
probabilistic gate. -/
theorem compose_empty_identity (coinOf : List Nat → ℚ) (fresh : Nat → Nat)
    (p : ℚ) (data : α) (seeds : List Nat) :
    Compose.call coinOf fresh ([] : List (STransform α)) p data seeds
      = data := rfl

/-- C2: for every subject and every label image in it whose binary
foreground is nonempty, KeepLargestComponent.apply_transform replaces the
image data so that a voxel is foreground exactly when it lies in a
connected component of the original foreground of maximal size, as the
toolkit's connected-component and relabel filters compute it, and the
subject is returned with its images in place. -/
theorem keepLargestComponent_apply_transform_spec (n : ℕ)
    (adj : Fin n → Fin n → Bool) (subject : Subject n) (i : ℕ)
    (img : LabelImage n) (himg : subject.images[i]? = some img)
    (hfg : ∃ v, img.data v = true) :
    ∃ C : Finset (Fin n),
      (∃ b, img.data b = true
          ∧ ∀ w, w ∈ C ↔ Connected n img.data adj b w)
      ∧ (∀ w, img.data w = true →
          ∀ D : Finset (Fin n),
            (∀ x, x ∈ D ↔ Connected n img.data adj w x) → D.card ≤ C.card)
      ∧ (∀ w ∈ C, img.data w = true)
      ∧ ∃ img2,
          (KeepLargestComponent.apply_transform n adj subject).images[i]?
              = some img2
            ∧ ∀ v, img2.data v = true ↔ v ∈ C := by
  obtain ⟨v0, hv0⟩ := hfg
  have hmem : v0 ∈ (List.finRange n).filter fun v => img.data v := by
    rw [List.mem_filter]
    exact ⟨List.mem_finRange v0, hv0⟩
  have hnil : ((List.finRange n).filter fun v => img.data v) ≠ [] :=
    List.ne_nil_of_mem hmem
  obtain ⟨b, hb⟩ : ∃ b, largestRep n img.data adj = some b := by
    cases harg : largestRep n img.data adj with
    | none =>
      rw [largestRep] at harg
      exact absurd (List.argmax_eq_none.mp harg) hnil
    | some b => exact ⟨b, rfl⟩
  have hbarg : ((List.finRange n).filter fun v => img.data v).argmax
      (fun v => (reachSet n img.data adj v).card) = some b := by
    rw [largestRep] at hb
    exact hb
  have hbmem : b ∈ (List.finRange n).filter fun v => img.data v :=
    List.argmax_mem hbarg
  have hfgb : img.data b = true := (List.mem_filter.mp hbmem).2
  refine ⟨reachSet n img.data adj b,
    ⟨b, hfgb, fun w => mem_reachSet_iff n img.data adj b hfgb w⟩,
    ?_, ?_, ?_⟩
  · intro w hfgw D hD
    have hDw : D = reachSet n img.data adj w := by
      apply Finset.ext
      intro x
      rw [hD x, mem_reachSet_iff n img.data adj w hfgw x]
    have hwmem : w ∈ (List.finRange n).filter fun v => img.data v := by
      rw [List.mem_filter]
      exact ⟨List.mem_finRange w, hfgw⟩
    rw [hDw]
    exact List.le_of_mem_argmax
      (f := fun v => (reachSet n img.data adj v).card) hwmem hbarg
  · intro w hw
    exact fg_of_mem_iterate n img.data adj b hfgb n w hw
  · refine ⟨⟨keepLargestData n img.data adj⟩, ?_, ?_⟩
    · show (subject.images.map fun im =>
          (⟨keepLargestData n im.data adj⟩ : LabelImage n))[i]? = _
      rw [List.getElem?_map, himg]
      rfl
    · intro v
      show keepLargestData n img.data adj v = true ↔ _
      rw [keepLargestData, hb]
      simp only [decide_eq_true_eq]

/-- Witness for C2 at a concrete input: four voxels on a line with voxel
two background; the subject has a single label image. -/
theorem keepLargestComponent_apply_transform_spec_witness :
    ((⟨[witnessImage]⟩ : Subject 4).images[0]? = some witnessImage)
      ∧ (∃ v, witnessImage.data v = true)
      ∧ ∃ C : Finset (Fin 4),
          (∃ b, witnessImage.data b = true
              ∧ ∀ w, w ∈ C ↔ Connected 4 witnessImage.data witnessAdj b w)
          ∧ (∀ w, witnessImage.data w = true →
              ∀ D : Finset (Fin 4),
                (∀ x, x ∈ D ↔ Connected 4 witnessImage.data witnessAdj w x)
                  → D.card ≤ C.card)
          ∧ (∀ w ∈ C, witnessImage.data w = true)
          ∧ ∃ img2,
              (KeepLargestComponent.apply_transform 4 witnessAdj
                  ⟨[witnessImage]⟩).images[0]? = some img2
                ∧ ∀ v, img2.data v = true ↔ v ∈ C :=
  ⟨rfl, ⟨0, rfl⟩,
    keepLargestComponent_apply_transform_spec 4 witnessAdj ⟨[witnessImage]⟩
      0 witnessImage rfl ⟨0, rfl⟩⟩

end TorchioSpec
